import Mathlib

/-!
Verification of the Brainfuck parser and executor in `bf.py`.

The Python source is shallowly embedded: the program text is a `List Char`,
the parser's growable token list is a `List CollapsedToken`, the bracket
stack is a `List Nat` whose head is the top (Python appends/pops at the end
of its list), and the executor's 30000-cell tape is a `List Int` initialised
with `List.replicate`.  Python's exceptions become `Except` values.  The two
`while` loops (the parse scan and the fetch-execute loop) are modelled with
an explicit fuel parameter so that every definition is structurally
recursive and can be evaluated by the kernel; `parse` supplies fuel equal to
the program length, which is sufficient because every iteration of the
Python loop consumes at least one character.
-/

/-- The eight instruction kinds of `class BFToken(Enum)` in `bf.py`. -/
inductive BFToken where
  | MoveRight
  | MoveLeft
  | JumpForward
  | JumpBackward
  | Incr
  | Decr
  | ReadStdIn
  | PutStdOut
deriving DecidableEq, Repr

/-- The literal source symbol associated with each instruction kind
(the `Enum` values `'>'`, `'<'`, `'['`, `']'`, `'+'`, `'-'`, `','`, `'.'`). -/
def BFToken.symbol : BFToken → Char
  | .MoveRight => '>'
  | .MoveLeft => '<'
  | .JumpForward => '['
  | .JumpBackward => ']'
  | .Incr => '+'
  | .Decr => '-'
  | .ReadStdIn => ','
  | .PutStdOut => '.'

/-- `BFToken.get`: look a character up among the eight instruction symbols,
returning `none` for any other character (Python catches `ValueError` and
returns `None`). -/
def BFToken.get (c : Char) : Option BFToken :=
  if c = '>' then some .MoveRight
  else if c = '<' then some .MoveLeft
  else if c = '[' then some .JumpForward
  else if c = ']' then some .JumpBackward
  else if c = '+' then some .Incr
  else if c = '-' then some .Decr
  else if c = ',' then some .ReadStdIn
  else if c = '.' then some .PutStdOut
  else none

/-- `class CollapsedToken(NamedTuple)`: an instruction kind together with
its value.  In Python the `value` field holds an `int` or `None` (`None`
only for a jump-forward whose closer has not been seen yet), so it is
modelled as `Option Nat`. -/
structure CollapsedToken where
  token : BFToken
  value : Option Nat
deriving DecidableEq, Repr

/-- Default used for out-of-range `List.getD` reads of token lists in the
model.  Its kind is neither bracket kind, so it can never masquerade as a
jump instruction; all reads the Python code performs are in range (proved
by the parser invariant below). -/
def defaultTok : CollapsedToken := ⟨BFToken.Incr, some 0⟩

/-- `def to_u8(value): return value % 255` — note the modulus is 255
(not 256); Python's `%` on a positive modulus is Euclidean, as is
`Int.emod`. -/
def to_u8 (value : Int) : Int := value % 255

/-- The `MismatchedBrackets(SyntaxError)` exception.  The three raise sites
carry different payloads: the (1-based) character offset of an unmatched
closer, the offending `CollapsedToken` at the internal-invariant check, and
the popped instruction index of an unclosed opener at end of scan.
`outOfFuel` is a model artifact of the fuel parameter and is unreachable
when the fuel is at least the remaining program length (as in `parse`). -/
inductive MismatchedBrackets where
  | unmatchedCloser (loc : Nat)
  | internal (t : CollapsedToken)
  | unclosedOpener (idx : Nat)
  | outOfFuel
deriving DecidableEq, Repr

/-- The run-length scan `while loc < length and symbol == prog[loc]`:
returns the number of immediately following characters equal to `symbol`
together with the remaining characters after the run. -/
def takeRun (symbol : Char) : List Char → Nat × List Char
  | [] => (0, [])
  | c :: rest =>
      if symbol = c then
        ((takeRun symbol rest).1 + 1, (takeRun symbol rest).2)
      else
        (0, c :: rest)

/-- One iteration of the `while loc < length` loop body of `parse`: consume
the character `c` (plus, for a run-length-collapsed instruction, the rest of
its maximal run), returning the updated remaining text, character offset,
token list and bracket stack, or the raised exception. -/
def parseStep (c : Char) (rest : List Char) (loc : Nat)
    (tokens : List CollapsedToken) (stack : List Nat) :
    Except MismatchedBrackets (List Char × Nat × List CollapsedToken × List Nat) :=
  match BFToken.get c with
  | none => .ok (rest, loc + 1, tokens, stack)
  | some op =>
      if op = BFToken.JumpBackward then
        match stack with
        | [] => .error (.unmatchedCloser (loc + 1))
        | openIdx :: stack' =>
            let opened := tokens.getD openIdx defaultTok
            if opened.token ≠ BFToken.JumpForward ∨ opened.value ≠ none then
              .error (.internal opened)
            else
              .ok (rest, loc + 1,
                (tokens.set openIdx { opened with value := some tokens.length }) ++
                  [⟨BFToken.JumpBackward, some openIdx⟩],
                stack')
      else if op = BFToken.JumpForward then
        .ok (rest, loc + 1, tokens ++ [⟨BFToken.JumpForward, none⟩], tokens.length :: stack)
      else
        .ok ((takeRun c rest).2, loc + 1 + (takeRun c rest).1,
          tokens ++ [⟨op, some ((takeRun c rest).1 + 1)⟩], stack)

/-- The `while loc < length` loop of `parse`, with fuel.  At end of input it
performs the final bracket-stack check (`if bracket_stack: raise
MismatchedBrackets(bracket_stack.pop())` — the pop takes the most recently
pushed, i.e. innermost, unclosed opener). -/
def parseLoop : Nat → List Char → Nat → List CollapsedToken → List Nat →
    Except MismatchedBrackets (List CollapsedToken)
  | _, [], _, tokens, stack =>
      match stack with
      | [] => .ok tokens
      | top :: _ => .error (.unclosedOpener top)
  | 0, _ :: _, _, _, _ => .error .outOfFuel
  | fuel + 1, c :: rest, loc, tokens, stack =>
      match parseStep c rest loc tokens stack with
      | .error e => .error e
      | .ok (rest', loc', tokens', stack') => parseLoop fuel rest' loc' tokens' stack'

/-- `def parse(prog)`: scan the whole text starting from offset 0 with empty
token list and bracket stack. -/
def parse (prog : List Char) : Except MismatchedBrackets (List CollapsedToken) :=
  parseLoop prog.length prog 0 [] []

/-- `TAPE_SIZE = 30000`. -/
def TAPE_SIZE : Nat := 30000

/-- The executor state of `run`: the tape list, the instruction pointer
`loc`, the data pointer `ptr` (an `int` in Python — kept as `Int` because
`move_to` is compared with `0` before the wraparound `%`), the not yet
consumed input characters (as numeric codes, i.e. `ord` values), and the
characters written so far to stdout (as numeric codes, i.e. `chr`
arguments). -/
structure RunState where
  tape : List Int
  loc : Nat
  ptr : Int
  stdin : List Int
  out : List Int
deriving DecidableEq, Repr

/-- The `for _ in range(op.value): tape[ptr] = ord(next(stdin_iter, '\0'))`
loop of the read-input step: each read overwrites the current cell with the
next input code, or with `ord('\0') = 0` once the input is exhausted.
Returns the new tape and remaining input. -/
def doReads : Nat → List Int → Int → List Int → List Int × List Int
  | 0, tape, _, stdin => (tape, stdin)
  | n + 1, tape, ptr, [] => doReads n (tape.set ptr.toNat 0) ptr []
  | n + 1, tape, ptr, c :: rest => doReads n (tape.set ptr.toNat c) ptr rest

/-- One iteration of the `while loc < prog_length` loop body of `run`,
dispatching on the current instruction's kind exactly as the chain of
mutually exclusive `if op.token == …` statements does, followed by the
unconditional `loc += 1`.  Tape indexing uses `ptr.toNat`; the move steps
keep `ptr` in `[0, TAPE_SIZE)` exactly as in Python, so the `Int`/list-index
conversion is exact on every reachable state. -/
def runStep (ops : List CollapsedToken) (s : RunState) : RunState :=
  let op := ops.getD s.loc defaultTok
  let v := op.value.getD 0
  let s' :=
    match op.token with
    | .MoveRight =>
        let move_to : Int := (v : Int) + s.ptr
        { s with ptr := if move_to > (TAPE_SIZE : Int) - 1 then move_to % (TAPE_SIZE : Int) else move_to }
    | .MoveLeft =>
        let move_to : Int := s.ptr - (v : Int)
        { s with ptr := if move_to < 0 then move_to % (TAPE_SIZE : Int) else move_to }
    | .Incr =>
        { s with tape := s.tape.set s.ptr.toNat (to_u8 (s.tape.getD s.ptr.toNat 0 + (v : Int))) }
    | .Decr =>
        { s with tape := s.tape.set s.ptr.toNat (to_u8 (s.tape.getD s.ptr.toNat 0 - (v : Int))) }
    | .ReadStdIn =>
        { s with tape := (doReads v s.tape s.ptr s.stdin).1, stdin := (doReads v s.tape s.ptr s.stdin).2 }
    | .PutStdOut =>
        { s with out := s.out ++ List.replicate v (s.tape.getD s.ptr.toNat 0) }
    | .JumpForward =>
        if s.tape.getD s.ptr.toNat 0 = 0 then { s with loc := v } else s
    | .JumpBackward =>
        if s.tape.getD s.ptr.toNat 0 ≠ 0 then { s with loc := v } else s
  { s' with loc := s'.loc + 1 }

/-- The `while loc < prog_length` loop of `run`, with fuel: `none` models a
run that has not terminated within `fuel` iterations. -/
def runLoop (ops : List CollapsedToken) : Nat → RunState → Option RunState
  | 0, s => if s.loc < ops.length then none else some s
  | fuel + 1, s => if s.loc < ops.length then runLoop ops fuel (runStep ops s) else some s

/-- The initial state built at the top of `run`: `tape = [0] * TAPE_SIZE`,
`loc = 0`, `ptr = 0`, the full input pending, nothing written. -/
def initState (stdin : List Int) : RunState :=
  ⟨List.replicate TAPE_SIZE 0, 0, 0, stdin, []⟩

/-- `def run(ops, stdin, stdout)` (with fuel): execute the collapsed
instruction sequence from the initial state. -/
def run (fuel : Nat) (ops : List CollapsedToken) (stdin : List Int) : Option RunState :=
  runLoop ops fuel (initState stdin)

/-- `def bf_to_one_line(prog)`: remove every newline character. -/
def bf_to_one_line (prog : List Char) : List Char :=
  prog.filter (fun c => c ≠ '\n')

/-- `def run_bf(prog, stdout, stdin="")`: parse the flattened program and
execute it; a parse failure propagates (modelled as `none`, before any
execution). -/
def run_bf (fuel : Nat) (prog : List Char) (stdin : List Int) : Option RunState :=
  match parse (bf_to_one_line prog) with
  | .ok ops => run fuel ops stdin
  | .error _ => none

/-- Expansion of one collapsed instruction back into source symbols: each
bracket instruction is a single symbol, every other kind repeats its symbol
`value` times. -/
def expandTok (t : CollapsedToken) : List Char :=
  match t.token with
  | .JumpForward => ['[']
  | .JumpBackward => [']']
  | op => List.replicate (t.value.getD 0) op.symbol

/-- Decollapsing a token sequence: concatenate the expansions. -/
def decollapse : List CollapsedToken → List Char
  | [] => []
  | t :: rest => expandTok t ++ decollapse rest

/-- The instruction-symbol subsequence of a program text: all characters
that are not one of the eight instruction symbols removed. -/
def instrFilter (prog : List Char) : List Char :=
  prog.filter (fun c => (BFToken.get c).isSome)

/-! ### Generic list lemmas used by the parser invariant -/

theorem getD_snoc {α : Type} (l : List α) (x d : α) (i : Nat) :
    (l ++ [x]).getD i d = if i = l.length then x else l.getD i d := by
  induction l generalizing i with
  | nil =>
      cases i with
      | zero => simp
      | succ n => simp [List.getD_cons_succ, List.getD_nil]
  | cons a l ih =>
      cases i with
      | zero => simp
      | succ n => simpa [List.getD_cons_succ] using ih n

theorem getD_set' {α : Type} (l : List α) (k i : Nat) (x d : α) :
    (l.set k x).getD i d = if k = i ∧ k < l.length then x else l.getD i d := by
  induction l generalizing k i with
  | nil => simp
  | cons a l ih =>
      cases k with
      | zero =>
          cases i with
          | zero => simp
          | succ n => simp
      | succ k =>
          cases i with
          | zero => simp
          | succ n => simpa [List.getD_cons_succ] using ih k n

theorem getD_of_length_le {α : Type} (l : List α) (d : α) (i : Nat)
    (h : l.length ≤ i) : l.getD i d = d := by
  induction l generalizing i with
  | nil => simp
  | cons a l ih =>
      cases i with
      | zero => simp at h
      | succ n => simpa [List.getD_cons_succ] using ih n (Nat.le_of_succ_le_succ h)

theorem getD_replicate_zero (n i : Nat) : (List.replicate n (0 : Int)).getD i 0 = 0 := by
  induction n generalizing i with
  | zero => simp
  | succ m ih =>
      cases i with
      | zero => simp [List.replicate]
      | succ k => simpa [List.replicate, List.getD_cons_succ] using ih k

/-! ### Facts about the run-length scan -/

theorem takeRun_length_le (symbol : Char) (l : List Char) :
    (takeRun symbol l).2.length ≤ l.length := by
  induction l with
  | nil => simp [takeRun]
  | cons c rest ih =>
      by_cases h : symbol = c
      · simpa [takeRun, h] using Nat.le_succ_of_le ih
      · simp [takeRun, h]

theorem takeRun_decomp (symbol : Char) (l : List Char) :
    l = List.replicate (takeRun symbol l).1 symbol ++ (takeRun symbol l).2 := by
  induction l with
  | nil => simp [takeRun]
  | cons c rest ih =>
      by_cases h : symbol = c
      · simp only [takeRun, if_pos h, List.replicate_succ, List.cons_append]
        rw [← h, ← ih]
      · simp [takeRun, h]

theorem filter_replicate_of_pos (p : Char → Bool) (c : Char) (h : p c = true) (n : Nat) :
    (List.replicate n c).filter p = List.replicate n c := by
  induction n with
  | zero => simp
  | succ m ih => simp [List.replicate_succ, List.filter_cons, h, ih]

/-! ### Facts about token lookup and decollapsing -/

theorem symbol_of_get (c : Char) (op : BFToken) (h : BFToken.get c = some op) :
    op.symbol = c := by
  unfold BFToken.get at h
  split_ifs at h with h1 h2 h3 h4 h5 h6 h7 h8 <;>
    first
      | (cases h; subst_vars; rfl)
      | cases h

theorem decollapse_append (a b : List CollapsedToken) :
    decollapse (a ++ b) = decollapse a ++ decollapse b := by
  induction a with
  | nil => simp [decollapse]
  | cons t rest ih => simp [decollapse, ih]

theorem decollapse_set (tokens : List CollapsedToken) (i : Nat) (x : CollapsedToken)
    (h : expandTok x = expandTok (tokens.getD i defaultTok)) :
    decollapse (tokens.set i x) = decollapse tokens := by
  induction tokens generalizing i with
  | nil => simp
  | cons t rest ih =>
      cases i with
      | zero => simp_all [decollapse]
      | succ n =>
          simp only [List.getD_cons_succ] at h
          simp [decollapse, ih n h]

/-! ### Unfolding equations for the parse loop -/

theorem parseLoop_nil (fuel loc : Nat) (tokens : List CollapsedToken) (stack : List Nat) :
    parseLoop fuel [] loc tokens stack =
      match stack with
      | [] => .ok tokens
      | top :: _ => .error (.unclosedOpener top) := by
  cases fuel <;> rfl

theorem parseLoop_cons (fuel loc : Nat) (c : Char) (rest : List Char)
    (tokens : List CollapsedToken) (stack : List Nat) :
    parseLoop (fuel + 1) (c :: rest) loc tokens stack =
      match parseStep c rest loc tokens stack with
      | .error e => .error e
      | .ok (rest', loc', tokens', stack') => parseLoop fuel rest' loc' tokens' stack' := rfl

/-- `parseStep` on a non-instruction character: skip it. -/
theorem parseStep_comment (c : Char) (rest : List Char) (loc : Nat)
    (tokens : List CollapsedToken) (stack : List Nat) (h : BFToken.get c = none) :
    parseStep c rest loc tokens stack = .ok (rest, loc + 1, tokens, stack) := by
  simp [parseStep, h]

/-- `parseStep` on a closer with an empty bracket stack: the unmatched-closer
error, carrying the already incremented character offset. -/
theorem parseStep_closer_nil (c : Char) (rest : List Char) (loc : Nat)
    (tokens : List CollapsedToken) (h : BFToken.get c = some BFToken.JumpBackward) :
    parseStep c rest loc tokens [] = .error (.unmatchedCloser (loc + 1)) := by
  simp [parseStep, h]

/-- `parseStep` on a closer whose popped index fails the internal check. -/
theorem parseStep_closer_bad (c : Char) (rest : List Char) (loc : Nat)
    (tokens : List CollapsedToken) (openIdx : Nat) (stack' : List Nat)
    (h : BFToken.get c = some BFToken.JumpBackward)
    (hb : (tokens.getD openIdx defaultTok).token ≠ BFToken.JumpForward ∨
        (tokens.getD openIdx defaultTok).value ≠ none) :
    parseStep c rest loc tokens (openIdx :: stack') =
      .error (.internal (tokens.getD openIdx defaultTok)) := by
  unfold parseStep
  rw [h]
  simp only [reduceIte]
  rw [if_pos hb]

/-- `parseStep` on a closer whose popped index holds an unresolved opener:
mutual resolution (the opener is patched in place, the closer appended). -/
theorem parseStep_closer_ok (c : Char) (rest : List Char) (loc : Nat)
    (tokens : List CollapsedToken) (openIdx : Nat) (stack' : List Nat)
    (h : BFToken.get c = some BFToken.JumpBackward)
    (hg : tokens.getD openIdx defaultTok = ⟨BFToken.JumpForward, none⟩) :
    parseStep c rest loc tokens (openIdx :: stack') =
      .ok (rest, loc + 1,
        (tokens.set openIdx ⟨BFToken.JumpForward, some tokens.length⟩) ++
          [⟨BFToken.JumpBackward, some openIdx⟩],
        stack') := by
  unfold parseStep
  rw [h]
  simp only [reduceIte]
  rw [hg]
  simp

/-- `parseStep` on an opener: push the new index, append an unresolved
jump-forward. -/
theorem parseStep_opener (c : Char) (rest : List Char) (loc : Nat)
    (tokens : List CollapsedToken) (stack : List Nat)
    (h : BFToken.get c = some BFToken.JumpForward) :
    parseStep c rest loc tokens stack =
      .ok (rest, loc + 1, tokens ++ [⟨BFToken.JumpForward, none⟩], tokens.length :: stack) := by
  simp [parseStep, h]

/-- `parseStep` on a run-length-collapsed instruction symbol. -/
theorem parseStep_run (c : Char) (rest : List Char) (loc : Nat)
    (tokens : List CollapsedToken) (stack : List Nat) (op : BFToken)
    (h : BFToken.get c = some op) (h1 : op ≠ BFToken.JumpBackward)
    (h2 : op ≠ BFToken.JumpForward) :
    parseStep c rest loc tokens stack =
      .ok ((takeRun c rest).2, loc + 1 + (takeRun c rest).1,
        tokens ++ [⟨op, some ((takeRun c rest).1 + 1)⟩], stack) := by
  simp [parseStep, h, h1, h2]

theorem parseStep_ok_length (c : Char) (rest : List Char) (loc : Nat)
    (tokens : List CollapsedToken) (stack : List Nat)
    (rest' : List Char) (loc' : Nat) (tokens' : List CollapsedToken) (stack' : List Nat)
    (h : parseStep c rest loc tokens stack = .ok (rest', loc', tokens', stack')) :
    rest'.length ≤ rest.length := by
  cases hg : BFToken.get c with
  | none =>
      rw [parseStep_comment c rest loc tokens stack hg] at h
      cases h
      exact Nat.le_refl _
  | some op =>
      by_cases hb : op = BFToken.JumpBackward
      · subst hb
        cases stack with
        | nil => rw [parseStep_closer_nil c rest loc tokens hg] at h; cases h
        | cons openIdx stk =>
            by_cases hok : tokens.getD openIdx defaultTok = ⟨BFToken.JumpForward, none⟩
            · rw [parseStep_closer_ok c rest loc tokens openIdx stk hg hok] at h
              cases h
              exact Nat.le_refl _
            · have hb2 : (tokens.getD openIdx defaultTok).token ≠ BFToken.JumpForward ∨
                  (tokens.getD openIdx defaultTok).value ≠ none := by
                by_contra hcon
                push_neg at hcon
                exact hok (by
                  cases hget : tokens.getD openIdx defaultTok
                  rw [hget] at hcon
                  simp only at hcon
                  simp [hcon.1, hcon.2])
              rw [parseStep_closer_bad c rest loc tokens openIdx stk hg hb2] at h
              cases h
      · by_cases hf : op = BFToken.JumpForward
        · subst hf
          rw [parseStep_opener c rest loc tokens stack hg] at h
          cases h
          exact Nat.le_refl _
        · rw [parseStep_run c rest loc tokens stack op hg hb hf] at h
          cases h
          exact takeRun_length_le _ _

theorem parseLoop_cons_error (fuel loc : Nat) (c : Char) (rest : List Char)
    (tokens : List CollapsedToken) (stack : List Nat) (e : MismatchedBrackets)
    (h : parseStep c rest loc tokens stack = .error e) :
    parseLoop (fuel + 1) (c :: rest) loc tokens stack = .error e := by
  rw [parseLoop_cons, h]

theorem parseLoop_cons_ok (fuel loc : Nat) (c : Char) (rest : List Char)
    (tokens : List CollapsedToken) (stack : List Nat)
    (rest' : List Char) (loc' : Nat) (tokens' : List CollapsedToken) (stack' : List Nat)
    (h : parseStep c rest loc tokens stack = .ok (rest', loc', tokens', stack')) :
    parseLoop (fuel + 1) (c :: rest) loc tokens stack =
      parseLoop fuel rest' loc' tokens' stack' := by
  rw [parseLoop_cons, h]

/-! ### The bracket-matching invariant of the parser -/

/-- Indices `i`, `j` form a mutually resolved bracket pair: the token at `i`
is a jump-forward whose value is `j` and the token at `j` is a jump-backward
whose value is `i`. -/
def IsPair (toks : List CollapsedToken) (i j : Nat) : Prop :=
  toks.getD i defaultTok = ⟨BFToken.JumpForward, some j⟩ ∧
  toks.getD j defaultTok = ⟨BFToken.JumpBackward, some i⟩

theorem isPair_lt (toks : List CollapsedToken) (i j : Nat) (h : IsPair toks i j) :
    i < toks.length ∧ j < toks.length := by
  obtain ⟨h1, h2⟩ := h
  constructor
  · by_contra hc
    push_neg at hc
    rw [getD_of_length_le _ _ _ hc] at h1
    exact absurd h1 (by simp [defaultTok])
  · by_contra hc
    push_neg at hc
    rw [getD_of_length_le _ _ _ hc] at h2
    exact absurd h2 (by simp [defaultTok])

/-- Reading through `tokens.set openIdx A ++ [B]` (the in-place patch of the
opener plus the appended closer). -/
theorem getD_close (tokens : List CollapsedToken) (openIdx : Nat) (A B : CollapsedToken)
    (hlt : openIdx < tokens.length) (x : Nat) :
    ((tokens.set openIdx A) ++ [B]).getD x defaultTok =
      if x = openIdx then A
      else if x = tokens.length then B
      else tokens.getD x defaultTok := by
  rw [getD_snoc, getD_set']
  simp only [List.length_set]
  split_ifs <;> first | rfl | omega | (exfalso; omega)

/-- Appending a token that is neither a resolved opener nor a resolved closer
creates and destroys no pairs. -/
theorem isPair_snoc (tokens : List CollapsedToken) (x : CollapsedToken) (i j : Nat)
    (hful : ∀ k, x ≠ ⟨BFToken.JumpForward, some k⟩)
    (hbak : ∀ k, x ≠ ⟨BFToken.JumpBackward, some k⟩) :
    IsPair (tokens ++ [x]) i j ↔ IsPair tokens i j := by
  constructor
  · rintro ⟨h1, h2⟩
    rw [getD_snoc] at h1 h2
    split_ifs at h1 h2 with ha hb
    · exact absurd h1 (hful j)
    · exact absurd h1 (hful j)
    · exact absurd h2 (hbak i)
    · exact ⟨h1, h2⟩
  · rintro ⟨h1, h2⟩
    obtain ⟨hi, hj⟩ := isPair_lt tokens i j ⟨h1, h2⟩
    constructor
    · rw [getD_snoc, if_neg (Nat.ne_of_lt hi)]; exact h1
    · rw [getD_snoc, if_neg (Nat.ne_of_lt hj)]; exact h2

/-- Classification of the pairs after resolving a closer: either the newly
created pair `(openIdx, tokens.length)`, or an old pair not involving
`openIdx`. -/
theorem isPair_close (tokens : List CollapsedToken) (openIdx : Nat)
    (hlt : openIdx < tokens.length)
    (hop : tokens.getD openIdx defaultTok = ⟨BFToken.JumpForward, none⟩) (i j : Nat) :
    IsPair ((tokens.set openIdx ⟨BFToken.JumpForward, some tokens.length⟩) ++
        [⟨BFToken.JumpBackward, some openIdx⟩]) i j ↔
      ((i = openIdx ∧ j = tokens.length) ∨
        (IsPair tokens i j ∧ i ≠ openIdx ∧ j ≠ openIdx)) := by
  constructor
  · rintro ⟨h1, h2⟩
    rw [getD_close tokens openIdx _ _ hlt] at h1 h2
    by_cases hio : i = openIdx
    · rw [if_pos hio] at h1
      have hj : j = tokens.length := by
        have := (CollapsedToken.mk.injEq _ _ _ _).mp h1
        simpa using this.2.symm
      exact Or.inl ⟨hio, hj⟩
    · rw [if_neg hio] at h1
      by_cases hil : i = tokens.length
      · rw [if_pos hil] at h1
        exact absurd h1 (by simp)
      · rw [if_neg hil] at h1
        by_cases hjo : j = openIdx
        · rw [if_pos hjo] at h2
          exact absurd h2 (by simp)
        · rw [if_neg hjo] at h2
          by_cases hjl : j = tokens.length
          · rw [if_pos hjl] at h2
            have : i = openIdx := by
              have := (CollapsedToken.mk.injEq _ _ _ _).mp h2
              simpa using this.2.symm
            exact absurd this hio
          · rw [if_neg hjl] at h2
            exact Or.inr ⟨⟨h1, h2⟩, hio, hjo⟩
  · rintro (⟨hi, hj⟩ | ⟨⟨h1, h2⟩, hio, hjo⟩)
    · constructor
      · rw [hi, getD_close tokens openIdx _ _ hlt, if_pos rfl, hj]
      · rw [hj, getD_close tokens openIdx _ _ hlt,
          if_neg (Nat.ne_of_gt hlt), if_pos rfl, hi]
    · obtain ⟨hi, hj⟩ := isPair_lt tokens i j ⟨h1, h2⟩
      constructor
      · rw [getD_close tokens openIdx _ _ hlt, if_neg hio, if_neg (Nat.ne_of_lt hi)]
        exact h1
      · rw [getD_close tokens openIdx _ _ hlt, if_neg hjo, if_neg (Nat.ne_of_lt hj)]
        exact h2

/-- The invariant maintained over the parse scan, relating the token list
built so far to the bracket stack (head = top = most recently pushed):
the stack is strictly decreasing from the head, its entries are exactly
indices of unresolved openers, every other jump-forward and every
jump-backward already belongs to a mutually resolved pair with the opener
first, pairs never cross, and unclosed openers never sit inside a resolved
pair. -/
structure ParseInv (tokens : List CollapsedToken) (stack : List Nat) : Prop where
  sorted : stack.Pairwise (fun a b => a > b)
  stackMem : ∀ i ∈ stack, i < tokens.length ∧
    tokens.getD i defaultTok = ⟨BFToken.JumpForward, none⟩
  openers : ∀ i, i < tokens.length →
    (tokens.getD i defaultTok).token = BFToken.JumpForward → i ∉ stack →
    ∃ j, j < tokens.length ∧ IsPair tokens i j ∧ i < j
  closers : ∀ j, j < tokens.length →
    (tokens.getD j defaultTok).token = BFToken.JumpBackward →
    ∃ i, IsPair tokens i j ∧ i < j
  pairOrd : ∀ i j, IsPair tokens i j → i < j
  noCross : ∀ i1 j1 i2 j2, IsPair tokens i1 j1 → IsPair tokens i2 j2 →
    i1 < i2 → i2 < j1 → j2 < j1
  stackOutside : ∀ s ∈ stack, ∀ i j, IsPair tokens i j → s < i ∨ j < s

theorem inv_nil : ParseInv [] [] := by
  refine ⟨List.Pairwise.nil, ?_, ?_, ?_, ?_, ?_, ?_⟩
  · intro i hi; cases hi
  · intro i hi; simp at hi
  · intro j hj; simp at hj
  · intro i j hp
    obtain ⟨hi, _⟩ := isPair_lt _ _ _ hp
    simp at hi
  · intro i1 j1 i2 j2 hp1 _ _ _
    obtain ⟨hi, _⟩ := isPair_lt _ _ _ hp1
    simp at hi
  · intro s hs; cases hs

/-- Appending a run-length-collapsed (non-bracket) instruction preserves the
parse invariant. -/
theorem inv_append_plain (tokens : List CollapsedToken) (stack : List Nat)
    (op : BFToken) (n : Nat) (h1 : op ≠ BFToken.JumpForward)
    (h2 : op ≠ BFToken.JumpBackward) (h : ParseInv tokens stack) :
    ParseInv (tokens ++ [⟨op, some n⟩]) stack := by
  have hful : ∀ k, (⟨op, some n⟩ : CollapsedToken) ≠ ⟨BFToken.JumpForward, some k⟩ := by
    intro k hk
    exact h1 (congrArg CollapsedToken.token hk)
  have hbak : ∀ k, (⟨op, some n⟩ : CollapsedToken) ≠ ⟨BFToken.JumpBackward, some k⟩ := by
    intro k hk
    exact h2 (congrArg CollapsedToken.token hk)
  have hpair := fun i j => isPair_snoc tokens ⟨op, some n⟩ i j hful hbak
  have hlen : (tokens ++ [(⟨op, some n⟩ : CollapsedToken)]).length = tokens.length + 1 := by
    simp
  refine ⟨h.sorted, ?_, ?_, ?_, ?_, ?_, ?_⟩
  · intro i hi
    obtain ⟨hlt, hgd⟩ := h.stackMem i hi
    refine ⟨by rw [hlen]; omega, ?_⟩
    rw [getD_snoc, if_neg (Nat.ne_of_lt hlt)]
    exact hgd
  · intro i hilt htok hns
    rw [hlen] at hilt
    by_cases hil : i = tokens.length
    · exfalso
      rw [hil, getD_snoc, if_pos rfl] at htok
      exact h1 htok
    · have hilt' : i < tokens.length := by omega
      rw [getD_snoc, if_neg hil] at htok
      obtain ⟨j, hjlt, hp, hij⟩ := h.openers i hilt' htok hns
      exact ⟨j, by rw [hlen]; omega, (hpair i j).mpr hp, hij⟩
  · intro j hjlt htok
    rw [hlen] at hjlt
    by_cases hjl : j = tokens.length
    · exfalso
      rw [hjl, getD_snoc, if_pos rfl] at htok
      exact h2 htok
    · have hjlt' : j < tokens.length := by omega
      rw [getD_snoc, if_neg hjl] at htok
      obtain ⟨i, hp, hij⟩ := h.closers j hjlt' htok
      exact ⟨i, (hpair i j).mpr hp, hij⟩
  · intro i j hp
    exact h.pairOrd i j ((hpair i j).mp hp)
  · intro i1 j1 i2 j2 hp1 hp2 ha hb
    exact h.noCross i1 j1 i2 j2 ((hpair i1 j1).mp hp1) ((hpair i2 j2).mp hp2) ha hb
  · intro s hs i j hp
    exact h.stackOutside s hs i j ((hpair i j).mp hp)

/-- Pushing an unresolved opener preserves the parse invariant. -/
theorem inv_push (tokens : List CollapsedToken) (stack : List Nat)
    (h : ParseInv tokens stack) :
    ParseInv (tokens ++ [⟨BFToken.JumpForward, none⟩]) (tokens.length :: stack) := by
  have hful : ∀ k, (⟨BFToken.JumpForward, none⟩ : CollapsedToken) ≠
      ⟨BFToken.JumpForward, some k⟩ := by
    intro k hk; simp at hk
  have hbak : ∀ k, (⟨BFToken.JumpForward, none⟩ : CollapsedToken) ≠
      ⟨BFToken.JumpBackward, some k⟩ := by
    intro k hk; simp at hk
  have hpair := fun i j => isPair_snoc tokens ⟨BFToken.JumpForward, none⟩ i j hful hbak
  have hlen : (tokens ++ [(⟨BFToken.JumpForward, none⟩ : CollapsedToken)]).length =
      tokens.length + 1 := by simp
  refine ⟨?_, ?_, ?_, ?_, ?_, ?_, ?_⟩
  · rw [List.pairwise_cons]
    exact ⟨fun b hb => (h.stackMem b hb).1, h.sorted⟩
  · intro i hi
    rcases List.mem_cons.mp hi with hi | hi
    · refine ⟨by rw [hlen]; omega, ?_⟩
      rw [hi, getD_snoc, if_pos rfl]
    · obtain ⟨hlt, hgd⟩ := h.stackMem i hi
      refine ⟨by rw [hlen]; omega, ?_⟩
      rw [getD_snoc, if_neg (Nat.ne_of_lt hlt)]
      exact hgd
  · intro i hilt htok hns
    have hne : i ≠ tokens.length := fun hc => hns (by rw [hc]; exact List.mem_cons_self _ _)
    have hilt' : i < tokens.length := by rw [hlen] at hilt; omega
    rw [getD_snoc, if_neg hne] at htok
    have hns' : i ∉ stack := fun hc => hns (List.mem_cons_of_mem _ hc)
    obtain ⟨j, hjlt, hp, hij⟩ := h.openers i hilt' htok hns'
    exact ⟨j, by rw [hlen]; omega, (hpair i j).mpr hp, hij⟩
  · intro j hjlt htok
    by_cases hjl : j = tokens.length
    · exfalso
      rw [hjl, getD_snoc, if_pos rfl] at htok
      simp at htok
    · have hjlt' : j < tokens.length := by rw [hlen] at hjlt; omega
      rw [getD_snoc, if_neg hjl] at htok
      obtain ⟨i, hp, hij⟩ := h.closers j hjlt' htok
      exact ⟨i, (hpair i j).mpr hp, hij⟩
  · intro i j hp
    exact h.pairOrd i j ((hpair i j).mp hp)
  · intro i1 j1 i2 j2 hp1 hp2 ha hb
    exact h.noCross i1 j1 i2 j2 ((hpair i1 j1).mp hp1) ((hpair i2 j2).mp hp2) ha hb
  · intro s hs i j hp
    have hp' := (hpair i j).mp hp
    rcases List.mem_cons.mp hs with hseq | hs'
    · obtain ⟨_, hj⟩ := isPair_lt tokens i j hp'
      right
      omega
    · exact h.stackOutside s hs' i j hp'

/-- Resolving a closer against the popped opener preserves the parse
invariant (with the opener removed from the stack). -/
theorem inv_close (tokens : List CollapsedToken) (stack2 : List Nat) (openIdx : Nat)
    (h : ParseInv tokens (openIdx :: stack2)) :
    ParseInv ((tokens.set openIdx ⟨BFToken.JumpForward, some tokens.length⟩) ++
        [⟨BFToken.JumpBackward, some openIdx⟩]) stack2 := by
  obtain ⟨hlt, hop⟩ := h.stackMem openIdx (List.mem_cons_self _ _)
  have hpair := fun i j => isPair_close tokens openIdx hlt hop i j
  have hsorted := List.pairwise_cons.mp h.sorted
  have hlen : ((tokens.set openIdx ⟨BFToken.JumpForward, some tokens.length⟩) ++
      [(⟨BFToken.JumpBackward, some openIdx⟩ : CollapsedToken)]).length =
      tokens.length + 1 := by simp
  refine ⟨hsorted.2, ?_, ?_, ?_, ?_, ?_, ?_⟩
  · intro i hi
    obtain ⟨hilt, hgd⟩ := h.stackMem i (List.mem_cons_of_mem _ hi)
    have hio : i ≠ openIdx := Nat.ne_of_lt (hsorted.1 i hi)
    refine ⟨by rw [hlen]; omega, ?_⟩
    rw [getD_close tokens openIdx _ _ hlt, if_neg hio, if_neg (Nat.ne_of_lt hilt)]
    exact hgd
  · intro i hilt htok hns
    rw [hlen] at hilt
    by_cases hio : i = openIdx
    · exact ⟨tokens.length, by rw [hlen]; omega,
        (hpair i tokens.length).mpr (Or.inl ⟨hio, rfl⟩), by omega⟩
    · by_cases hil : i = tokens.length
      · exfalso
        rw [getD_close tokens openIdx _ _ hlt, if_neg hio, if_pos hil] at htok
        simp at htok
      · have hilt' : i < tokens.length := by omega
        rw [getD_close tokens openIdx _ _ hlt, if_neg hio, if_neg hil] at htok
        have hns' : i ∉ openIdx :: stack2 := by
          intro hc
          rcases List.mem_cons.mp hc with hc | hc
          · exact hio hc
          · exact hns hc
        obtain ⟨j, hjlt, hp, hij⟩ := h.openers i hilt' htok hns'
        have hjo : j ≠ openIdx := by
          intro hc
          obtain ⟨hpa, hpb⟩ := hp
          rw [hc, hop] at hpb
          simp at hpb
        exact ⟨j, by rw [hlen]; omega, (hpair i j).mpr (Or.inr ⟨hp, hio, hjo⟩), hij⟩
  · intro j hjlt htok
    rw [hlen] at hjlt
    by_cases hjo : j = openIdx
    · exfalso
      rw [getD_close tokens openIdx _ _ hlt, if_pos hjo] at htok
      simp at htok
    · by_cases hjl : j = tokens.length
      · exact ⟨openIdx, (hpair openIdx j).mpr (Or.inl ⟨rfl, hjl⟩), by omega⟩
      · have hjlt' : j < tokens.length := by omega
        rw [getD_close tokens openIdx _ _ hlt, if_neg hjo, if_neg hjl] at htok
        obtain ⟨i, hp, hij⟩ := h.closers j hjlt' htok
        have hio : i ≠ openIdx := by
          intro hc
          obtain ⟨hpa, hpb⟩ := hp
          rw [hc, hop] at hpa
          simp at hpa
        exact ⟨i, (hpair i j).mpr (Or.inr ⟨hp, hio, hjo⟩), hij⟩
  · intro i j hp
    rcases (hpair i j).mp hp with ⟨hi, hj⟩ | ⟨hp', _, _⟩
    · omega
    · exact h.pairOrd i j hp'
  · intro i1 j1 i2 j2 hp1 hp2 h12 h21
    rcases (hpair i1 j1).mp hp1 with ⟨hi1, hj1⟩ | ⟨hp1', hio1, hjo1⟩
    · rcases (hpair i2 j2).mp hp2 with ⟨hi2, hj2⟩ | ⟨hp2', _, _⟩
      · omega
      · obtain ⟨_, hj2lt⟩ := isPair_lt tokens i2 j2 hp2'
        omega
    · rcases (hpair i2 j2).mp hp2 with ⟨hi2, hj2⟩ | ⟨hp2', _, _⟩
      · exfalso
        have := h.stackOutside openIdx (List.mem_cons_self _ _) i1 j1 hp1'
        omega
      · exact h.noCross i1 j1 i2 j2 hp1' hp2' h12 h21
  · intro s hs i j hp
    rcases (hpair i j).mp hp with ⟨hi, hj⟩ | ⟨hp', _, _⟩
    · left
      have := hsorted.1 s hs
      omega
    · exact h.stackOutside s (List.mem_cons_of_mem _ hs) i j hp'

/-- Master lemma: starting from any state satisfying the parse invariant
(with enough fuel), the scan never raises the internal-invariant error, and
when it succeeds the returned token list satisfies the invariant with an
empty stack. -/
theorem parseLoop_inv (fuel : Nat) :
    ∀ (prog : List Char) (loc : Nat) (tokens : List CollapsedToken) (stack : List Nat),
      prog.length ≤ fuel → ParseInv tokens stack →
      (∀ t, parseLoop fuel prog loc tokens stack ≠ .error (.internal t)) ∧
      (∀ out, parseLoop fuel prog loc tokens stack = .ok out → ParseInv out []) := by
  induction fuel with
  | zero =>
      intro prog loc tokens stack hlen hinv
      have hnil : prog = [] := List.eq_nil_of_length_eq_zero (Nat.le_zero.mp hlen)
      subst hnil
      rw [parseLoop_nil]
      cases stack with
      | nil =>
          constructor
          · intro t ht
            cases ht
          · intro out hout
            cases hout
            exact hinv
      | cons top stk =>
          constructor
          · intro t ht
            simp at ht
          · intro out hout
            cases hout
  | succ fuel ih =>
      intro prog loc tokens stack hlen hinv
      cases prog with
      | nil =>
          rw [parseLoop_nil]
          cases stack with
          | nil =>
              constructor
              · intro t ht
                cases ht
              · intro out hout
                cases hout
                exact hinv
          | cons top stk =>
              constructor
              · intro t ht
                simp at ht
              · intro out hout
                cases hout
      | cons c rest =>
          have hrest : rest.length ≤ fuel := by
            simp only [List.length_cons] at hlen
            omega
          cases hg : BFToken.get c with
          | none =>
              rw [parseLoop_cons_ok fuel loc c rest tokens stack _ _ _ _
                (parseStep_comment c rest loc tokens stack hg)]
              exact ih rest (loc + 1) tokens stack hrest hinv
          | some op =>
              by_cases hb : op = BFToken.JumpBackward
              · subst hb
                cases stack with
                | nil =>
                    rw [parseLoop_cons_error fuel loc c rest tokens [] _
                      (parseStep_closer_nil c rest loc tokens hg)]
                    constructor
                    · intro t ht
                      simp at ht
                    · intro out hout
                      cases hout
                | cons openIdx stack2 =>
                    obtain ⟨hlt, hop⟩ := hinv.stackMem openIdx (List.mem_cons_self _ _)
                    rw [parseLoop_cons_ok fuel loc c rest tokens (openIdx :: stack2) _ _ _ _
                      (parseStep_closer_ok c rest loc tokens openIdx stack2 hg hop)]
                    exact ih rest (loc + 1) _ stack2 hrest (inv_close tokens stack2 openIdx hinv)
              · by_cases hf : op = BFToken.JumpForward
                · subst hf
                  rw [parseLoop_cons_ok fuel loc c rest tokens stack _ _ _ _
                    (parseStep_opener c rest loc tokens stack hg)]
                  exact ih rest (loc + 1) _ _ hrest (inv_push tokens stack hinv)
                · rw [parseLoop_cons_ok fuel loc c rest tokens stack _ _ _ _
                    (parseStep_run c rest loc tokens stack op hg hb hf)]
                  exact ih (takeRun c rest).2 (loc + 1 + (takeRun c rest).1) _ stack
                    (Nat.le_trans (takeRun_length_le c rest) hrest) (inv_append_plain tokens stack op _ hf hb hinv)

/-- The bracket-matching property claimed for successful parses: every
jump-forward is resolved (value not `none`) to the index of a jump-backward
pointing back at it, every jump-backward points back at such a jump-forward,
openers precede their closers, and pairs never cross (proper nesting). -/
def BracketMatchingSpec (toks : List CollapsedToken) : Prop :=
  (∀ i, i < toks.length → (toks.getD i defaultTok).token = BFToken.JumpForward →
      ∃ j, (toks.getD i defaultTok).value = some j ∧ i < j ∧ j < toks.length ∧
        toks.getD j defaultTok = ⟨BFToken.JumpBackward, some i⟩) ∧
  (∀ j, j < toks.length → (toks.getD j defaultTok).token = BFToken.JumpBackward →
      ∃ i, (toks.getD j defaultTok).value = some i ∧ i < j ∧
        toks.getD i defaultTok = ⟨BFToken.JumpForward, some j⟩) ∧
  (∀ i1 j1 i2 j2, IsPair toks i1 j1 → IsPair toks i2 j2 →
      i1 < i2 → i2 < j1 → j2 < j1) ∧
  (∀ i, i < toks.length → (toks.getD i defaultTok).token = BFToken.JumpForward →
      (toks.getD i defaultTok).value ≠ none)

theorem bracketSpec_of_inv (toks : List CollapsedToken) (h : ParseInv toks []) :
    BracketMatchingSpec toks := by
  refine ⟨?_, ?_, h.noCross, ?_⟩
  · intro i hi htok
    obtain ⟨j, hjlt, hp, hij⟩ := h.openers i hi htok (by simp)
    obtain ⟨hp1, hp2⟩ := hp
    exact ⟨j, by rw [hp1], hij, hjlt, hp2⟩
  · intro j hj htok
    obtain ⟨i, hp, hij⟩ := h.closers j hj htok
    obtain ⟨hp1, hp2⟩ := hp
    exact ⟨i, by rw [hp2], hij, hp1⟩
  · intro i hi htok
    obtain ⟨j, hjlt, hp, hij⟩ := h.openers i hi htok (by simp)
    obtain ⟨hp1, hp2⟩ := hp
    rw [hp1]
    simp

/-- C3: for every program text on which `parse` succeeds, the jump
instructions of the returned collapsed sequence form a balanced, properly
nested (non-crossing) parenthesization: every jump-if-zero's value is the
index of its matching jump-if-nonzero and vice versa, and no jump-if-zero
target is left unresolved (`None`). -/
theorem parse_bracket_matching (prog : List Char) (toks : List CollapsedToken)
    (h : parse prog = .ok toks) : BracketMatchingSpec toks :=
  bracketSpec_of_inv toks
    ((parseLoop_inv prog.length prog 0 [] [] (Nat.le_refl _) inv_nil).2 toks h)

/-- Witness for C3 at the concrete program `"[]"`. -/
theorem parse_bracket_matching_witness :
    BracketMatchingSpec [⟨BFToken.JumpForward, some 1⟩, ⟨BFToken.JumpBackward, some 0⟩] :=
  parse_bracket_matching ("[]".toList)
    [⟨BFToken.JumpForward, some 1⟩, ⟨BFToken.JumpBackward, some 0⟩] (by rfl)

/-- Recognizer for the internal-invariant error among parse outcomes. -/
def isInternalErr : Except MismatchedBrackets (List CollapsedToken) → Bool
  | .error (.internal _) => true
  | _ => false

/-- C9: whenever `parse` pops an index off the bracket stack, the collapsed
instruction there is a jump-if-zero with an unresolved target, so the
internal-invariant failure branch is unreachable: no input makes `parse`
return the internal error. -/
theorem parse_internal_invariant_unreachable (prog : List Char) :
    isInternalErr (parse prog) = false := by
  have h := (parseLoop_inv prog.length prog 0 [] [] (Nat.le_refl _) inv_nil).1
  cases hp : parse prog with
  | ok out => rfl
  | error e =>
      cases e with
      | unmatchedCloser l => rfl
      | internal t => exact absurd hp (h t)
      | unclosedOpener i => rfl
      | outOfFuel => rfl

/-- C6, counterexample: on `"[["` both openers are unclosed; the outermost
one sits at instruction index 0 (character offset 0), yet the raised error
carries index 1 — the innermost unclosed opener, because
`bracket_stack.pop()` pops the most recently pushed entry. -/
theorem unclosed_opener_outermost_cex :
    parse ("[[".toList) = .error (.unclosedOpener 1) ∧ (1 : Nat) ≠ 0 := by
  constructor
  · rfl
  · decide

theorem parseLoop_end_nonempty (fuel loc : Nat) (tokens : List CollapsedToken)
    (top : Nat) (stk : List Nat) :
    parseLoop fuel [] loc tokens (top :: stk) = .error (.unclosedOpener top) := by
  rw [parseLoop_nil]

theorem parseLoop_all_openers (m : Nat) :
    ∀ (loc : Nat) (tokens : List CollapsedToken) (stack : List Nat),
      parseLoop (m + 1) (List.replicate (m + 1) '[') loc tokens stack =
        .error (.unclosedOpener (tokens.length + m)) := by
  have hget : BFToken.get '[' = some BFToken.JumpForward := rfl
  induction m with
  | zero =>
      intro loc tokens stack
      rw [show List.replicate 1 '[' = ['['] from rfl]
      rw [parseLoop_cons_ok 0 loc '[' [] tokens stack _ _ _ _
        (parseStep_opener '[' [] loc tokens stack hget)]
      rw [parseLoop_end_nonempty]
      rfl
  | succ m ih =>
      intro loc tokens stack
      rw [List.replicate_succ]
      rw [parseLoop_cons_ok (m + 1) loc '[' (List.replicate (m + 1) '[') tokens stack _ _ _ _
        (parseStep_opener '[' (List.replicate (m + 1) '[') loc tokens stack hget)]
      rw [ih (loc + 1) (tokens ++ [(⟨BFToken.JumpForward, none⟩ : CollapsedToken)])
        (tokens.length :: stack)]
      have harr : (tokens ++ [(⟨BFToken.JumpForward, none⟩ : CollapsedToken)]).length + m =
          tokens.length + (m + 1) := by
        simp only [List.length_append, List.length_singleton]
        omega
      rw [harr]

/-- C6, amended: when the scan completes with a non-empty bracket stack,
`parse` fails with a bracket-mismatch error identifying the position of the
innermost (most recently opened) unclosed jump-if-zero opener — the top of
the bracket stack — not the outermost one.  First conjunct: the end-of-scan
behaviour reports the stack top.  Second conjunct: on a program of `m + 1`
consecutive openers the reported index is `m`, the last (innermost) opener. -/
theorem unclosed_opener_innermost :
    (∀ (fuel loc : Nat) (tokens : List CollapsedToken) (top : Nat) (stk : List Nat),
      parseLoop fuel [] loc tokens (top :: stk) = .error (.unclosedOpener top)) ∧
    (∀ m : Nat, parse (List.replicate (m + 1) '[') = .error (.unclosedOpener m)) := by
  constructor
  · exact parseLoop_end_nonempty
  · intro m
    unfold parse
    rw [List.length_replicate]
    rw [parseLoop_all_openers m 0 [] []]
    simp

/-- C7: `"]"`, `"["` and `"[[]"` each fail with a bracket-mismatch fault
(with the exact payloads the code produces), and `"[]"` parses to exactly
two collapsed instructions whose targets point at each other. -/
theorem parse_failure_cases :
    parse ("]".toList) = .error (.unmatchedCloser 1) ∧
    parse ("[".toList) = .error (.unclosedOpener 0) ∧
    parse ("[[]".toList) = .error (.unclosedOpener 0) ∧
    parse ("[]".toList) =
      .ok [⟨BFToken.JumpForward, some 1⟩, ⟨BFToken.JumpBackward, some 0⟩] := by
  exact ⟨rfl, rfl, rfl, rfl⟩

/-! ### Run-length correctness of the parser (C4) -/

/-- Every non-bracket collapsed instruction carries a run length of at
least 1. -/
def MinRun (toks : List CollapsedToken) : Prop :=
  ∀ k, k < toks.length → (toks.getD k defaultTok).token ≠ BFToken.JumpForward →
    (toks.getD k defaultTok).token ≠ BFToken.JumpBackward →
    ∃ n, (toks.getD k defaultTok).value = some n ∧ 1 ≤ n

theorem expandTok_nonbracket (op : BFToken) (v : Option Nat)
    (h1 : op ≠ BFToken.JumpForward) (h2 : op ≠ BFToken.JumpBackward) :
    expandTok ⟨op, v⟩ = List.replicate (v.getD 0) op.symbol := by
  cases op <;> first | rfl | (exact absurd rfl h1) | (exact absurd rfl h2)

theorem eq_forward_none_of (t : CollapsedToken) (h1 : t.token = BFToken.JumpForward)
    (h2 : t.value = none) : t = ⟨BFToken.JumpForward, none⟩ := by
  rcases t with ⟨tok, val⟩
  simp_all

theorem check_fail_of_ne (t : CollapsedToken) (h : t ≠ ⟨BFToken.JumpForward, none⟩) :
    t.token ≠ BFToken.JumpForward ∨ t.value ≠ none := by
  by_contra hcon
  push_neg at hcon
  exact h (eq_forward_none_of t hcon.1 hcon.2)

theorem minRun_snoc (toks : List CollapsedToken) (t : CollapsedToken) (h : MinRun toks)
    (ht : t.token ≠ BFToken.JumpForward → t.token ≠ BFToken.JumpBackward →
      ∃ n, t.value = some n ∧ 1 ≤ n) :
    MinRun (toks ++ [t]) := by
  intro k hk h1 h2
  rw [getD_snoc] at h1 h2 ⊢
  by_cases hkl : k = toks.length
  · rw [if_pos hkl] at h1 h2 ⊢
    exact ht h1 h2
  · rw [if_neg hkl] at h1 h2 ⊢
    have hklt : k < toks.length := by
      simp only [List.length_append, List.length_singleton] at hk
      omega
    exact h k hklt h1 h2

theorem minRun_set_bracket (toks : List CollapsedToken) (i : Nat) (x : CollapsedToken)
    (hx : x.token = BFToken.JumpForward ∨ x.token = BFToken.JumpBackward)
    (h : MinRun toks) : MinRun (toks.set i x) := by
  intro k hk h1 h2
  rw [getD_set'] at h1 h2 ⊢
  by_cases hik : i = k ∧ i < toks.length
  · rw [if_pos hik] at h1
    rw [if_pos hik] at h2
    rcases hx with hx | hx
    · exact absurd hx h1
    · exact absurd hx h2
  · rw [if_neg hik] at h1 h2 ⊢
    rw [List.length_set] at hk
    exact h k hk h1 h2

/-- Master lemma for run-length correctness: a successful scan extends the
decollapsed text by exactly the instruction-symbol subsequence of the
remaining program, and preserves the minimum-run-length property. -/
theorem parseLoop_decollapse (fuel : Nat) :
    ∀ (prog : List Char) (loc : Nat) (tokens : List CollapsedToken) (stack : List Nat)
      (out : List CollapsedToken),
      prog.length ≤ fuel →
      parseLoop fuel prog loc tokens stack = .ok out →
      decollapse out = decollapse tokens ++ instrFilter prog ∧
      (MinRun tokens → MinRun out) := by
  induction fuel with
  | zero =>
      intro prog loc tokens stack out hlen hout
      have hnil : prog = [] := List.eq_nil_of_length_eq_zero (Nat.le_zero.mp hlen)
      subst hnil
      rw [parseLoop_nil] at hout
      cases stack with
      | nil =>
          cases hout
          exact ⟨by simp [instrFilter], id⟩
      | cons top stk => cases hout
  | succ fuel ih =>
      intro prog loc tokens stack out hlen hout
      cases prog with
      | nil =>
          rw [parseLoop_nil] at hout
          cases stack with
          | nil =>
              cases hout
              exact ⟨by simp [instrFilter], id⟩
          | cons top stk => cases hout
      | cons c rest =>
          have hrest : rest.length ≤ fuel := by
            simp only [List.length_cons] at hlen
            omega
          cases hg : BFToken.get c with
          | none =>
              rw [parseLoop_cons_ok fuel loc c rest tokens stack _ _ _ _
                (parseStep_comment c rest loc tokens stack hg)] at hout
              obtain ⟨hd, hm⟩ := ih rest (loc + 1) tokens stack out hrest hout
              refine ⟨?_, hm⟩
              rw [hd]
              simp [instrFilter, List.filter_cons, hg]
          | some op =>
              by_cases hb : op = BFToken.JumpBackward
              · subst hb
                have hc : c = ']' := by
                  have := symbol_of_get c _ hg
                  simpa [BFToken.symbol] using this.symm
                subst hc
                cases stack with
                | nil =>
                    rw [parseLoop_cons_error fuel loc ']' rest tokens [] _
                      (parseStep_closer_nil ']' rest loc tokens hg)] at hout
                    cases hout
                | cons openIdx stack2 =>
                    by_cases hok : tokens.getD openIdx defaultTok = ⟨BFToken.JumpForward, none⟩
                    · rw [parseLoop_cons_ok fuel loc ']' rest tokens (openIdx :: stack2) _ _ _ _
                        (parseStep_closer_ok ']' rest loc tokens openIdx stack2 hg hok)] at hout
                      obtain ⟨hd, hm⟩ := ih rest (loc + 1) _ stack2 out hrest hout
                      constructor
                      · rw [hd, decollapse_append,
                          decollapse_set tokens openIdx _ (by rw [hok]; rfl)]
                        simp [decollapse, expandTok, instrFilter, List.filter_cons, hg]
                      · intro hmr
                        exact hm (minRun_snoc _ _
                          (minRun_set_bracket _ _ _ (Or.inl rfl) hmr)
                          (fun h1 h2 => absurd rfl h2))
                    · rw [parseLoop_cons_error fuel loc ']' rest tokens (openIdx :: stack2) _
                        (parseStep_closer_bad ']' rest loc tokens openIdx stack2 hg
                          (check_fail_of_ne _ hok))] at hout
                      cases hout
              · by_cases hf : op = BFToken.JumpForward
                · subst hf
                  have hc : c = '[' := by
                    have := symbol_of_get c _ hg
                    simpa [BFToken.symbol] using this.symm
                  subst hc
                  rw [parseLoop_cons_ok fuel loc '[' rest tokens stack _ _ _ _
                    (parseStep_opener '[' rest loc tokens stack hg)] at hout
                  obtain ⟨hd, hm⟩ := ih rest (loc + 1) _ (tokens.length :: stack) out hrest hout
                  constructor
                  · rw [hd, decollapse_append]
                    simp [decollapse, expandTok, instrFilter, List.filter_cons, hg]
                  · intro hmr
                    exact hm (minRun_snoc _ _ hmr (fun h1 h2 => absurd rfl h1))
                · have hcs : op.symbol = c := symbol_of_get c _ hg
                  rw [parseLoop_cons_ok fuel loc c rest tokens stack _ _ _ _
                    (parseStep_run c rest loc tokens stack op hg hb hf)] at hout
                  obtain ⟨hd, hm⟩ := ih (takeRun c rest).2 (loc + 1 + (takeRun c rest).1) _ stack out
                    (Nat.le_trans (takeRun_length_le c rest) hrest) hout
                  constructor
                  · rw [hd, decollapse_append]
                    have hsplit : instrFilter rest =
                        List.replicate (takeRun c rest).1 c ++ instrFilter (takeRun c rest).2 := by
                      conv_lhs => rw [takeRun_decomp c rest]
                      simp only [instrFilter, List.filter_append]
                      rw [filter_replicate_of_pos _ _ (by simp [hg])]
                    have hstep : instrFilter (c :: rest) = c :: instrFilter rest := by
                      simp [instrFilter, List.filter_cons, hg]
                    rw [hstep, hsplit, decollapse, decollapse,
                      expandTok_nonbracket op _ hf hb, hcs]
                    simp [List.replicate_succ]
                  · intro hmr
                    refine hm (minRun_snoc _ _ hmr (fun h1 h2 => ?_))
                    exact ⟨(takeRun c rest).1 + 1, rfl, by omega⟩

/-- The run-length correctness property claimed for successful parses:
decollapsing reproduces exactly the instruction-symbol subsequence of the
input (brackets expanding to single symbols), and every non-bracket
collapsed instruction has run length at least 1. -/
def RunLengthSpec (prog : List Char) (toks : List CollapsedToken) : Prop :=
  decollapse toks = instrFilter prog ∧ MinRun toks

/-- C4: for every program text on which `parse` succeeds, expanding each
collapsed instruction back into its source symbols yields exactly the
instruction-symbol subsequence of the input, in order; in particular every
non-bracket run length is at least 1 and brackets are never run-length
collapsed (each expands to exactly one symbol). -/
theorem parse_runlength (prog : List Char) (toks : List CollapsedToken)
    (h : parse prog = .ok toks) : RunLengthSpec prog toks := by
  obtain ⟨hd, hm⟩ := parseLoop_decollapse prog.length prog 0 [] [] toks (Nat.le_refl _) h
  have hmr0 : MinRun [] := by
    intro k hk h1 h2
    simp at hk
  exact ⟨by simpa [decollapse] using hd, hm hmr0⟩

/-- Witness for C4 at the concrete program `"++a++[-]."` (runs, a comment
character breaking a run, and a bracket pair). -/
theorem parse_runlength_witness :
    RunLengthSpec ("++a++[-].".toList)
      [⟨BFToken.Incr, some 2⟩, ⟨BFToken.Incr, some 2⟩, ⟨BFToken.JumpForward, some 4⟩,
        ⟨BFToken.Decr, some 1⟩, ⟨BFToken.JumpBackward, some 2⟩, ⟨BFToken.PutStdOut, some 1⟩] :=
  parse_runlength ("++a++[-].".toList)
    [⟨BFToken.Incr, some 2⟩, ⟨BFToken.Incr, some 2⟩, ⟨BFToken.JumpForward, some 4⟩,
      ⟨BFToken.Decr, some 1⟩, ⟨BFToken.JumpBackward, some 2⟩, ⟨BFToken.PutStdOut, some 1⟩]
    (by rfl)

/-! ### Executor stepping (C5) -/

theorem runLoop_zero (ops : List CollapsedToken) (s : RunState) :
    runLoop ops 0 s = if s.loc < ops.length then none else some s := rfl

theorem runLoop_succ (ops : List CollapsedToken) (fuel : Nat) (s : RunState) :
    runLoop ops (fuel + 1) s =
      if s.loc < ops.length then runLoop ops fuel (runStep ops s) else some s := rfl

/-- A non-jump step (including reads/writes/moves) advances the instruction
pointer by exactly one. -/
theorem runStep_loc_nonjump (ops : List CollapsedToken) (s : RunState)
    (h1 : (ops.getD s.loc defaultTok).token ≠ BFToken.JumpForward)
    (h2 : (ops.getD s.loc defaultTok).token ≠ BFToken.JumpBackward) :
    (runStep ops s).loc = s.loc + 1 := by
  rcases hop : ops.getD s.loc defaultTok with ⟨tok, val⟩
  rw [hop] at h1 h2
  cases tok <;> simp_all [runStep, hop]

theorem runStep_jump_forward_taken (ops : List CollapsedToken) (s : RunState) (j : Nat)
    (h : ops.getD s.loc defaultTok = ⟨BFToken.JumpForward, some j⟩)
    (hz : s.tape.getD s.ptr.toNat 0 = 0) :
    (runStep ops s).loc = j + 1 := by
  simp_all [runStep]

theorem runStep_jump_forward_not_taken (ops : List CollapsedToken) (s : RunState) (j : Nat)
    (h : ops.getD s.loc defaultTok = ⟨BFToken.JumpForward, some j⟩)
    (hz : s.tape.getD s.ptr.toNat 0 ≠ 0) :
    (runStep ops s).loc = s.loc + 1 := by
  simp_all [runStep]

theorem runStep_jump_backward_taken (ops : List CollapsedToken) (s : RunState) (i : Nat)
    (h : ops.getD s.loc defaultTok = ⟨BFToken.JumpBackward, some i⟩)
    (hz : s.tape.getD s.ptr.toNat 0 ≠ 0) :
    (runStep ops s).loc = i + 1 := by
  simp_all [runStep]

theorem runStep_jump_backward_not_taken (ops : List CollapsedToken) (s : RunState) (i : Nat)
    (h : ops.getD s.loc defaultTok = ⟨BFToken.JumpBackward, some i⟩)
    (hz : s.tape.getD s.ptr.toNat 0 = 0) :
    (runStep ops s).loc = s.loc + 1 := by
  simp_all [runStep]

/-- All jump targets resolved and in bounds — guaranteed for parser outputs
by the bracket-matching invariant (C3). -/
def TargetsOk (ops : List CollapsedToken) : Prop :=
  ∀ k, k < ops.length →
    ((ops.getD k defaultTok).token = BFToken.JumpForward ∨
      (ops.getD k defaultTok).token = BFToken.JumpBackward) →
    (ops.getD k defaultTok).value ≠ none ∧
      (ops.getD k defaultTok).value.getD 0 < ops.length

theorem runStep_loc_le (ops : List CollapsedToken) (s : RunState)
    (hT : TargetsOk ops) (hlt : s.loc < ops.length) :
    (runStep ops s).loc ≤ ops.length := by
  rcases hop : ops.getD s.loc defaultTok with ⟨tok, val⟩
  have hnj : tok ≠ BFToken.JumpForward → tok ≠ BFToken.JumpBackward →
      (runStep ops s).loc = s.loc + 1 := by
    intro h1 h2
    refine runStep_loc_nonjump ops s ?_ ?_ <;> rw [hop] <;> simpa
  cases tok with
  | JumpForward =>
      obtain ⟨hv, hvlt⟩ := hT s.loc hlt (by rw [hop]; exact Or.inl rfl)
      rw [hop] at hv hvlt
      simp only [Option.getD] at hvlt
      cases val with
      | none => simp at hv
      | some j =>
          by_cases hz : s.tape.getD s.ptr.toNat 0 = 0
          · rw [runStep_jump_forward_taken ops s j hop hz]
            simpa using hvlt
          · rw [runStep_jump_forward_not_taken ops s j hop hz]
            omega
  | JumpBackward =>
      obtain ⟨hv, hvlt⟩ := hT s.loc hlt (by rw [hop]; exact Or.inr rfl)
      rw [hop] at hv hvlt
      cases val with
      | none => simp at hv
      | some i =>
          by_cases hz : s.tape.getD s.ptr.toNat 0 = 0
          · rw [runStep_jump_backward_not_taken ops s i hop hz]
            omega
          · rw [runStep_jump_backward_taken ops s i hop hz]
            simpa using hvlt
  | MoveRight => rw [hnj (by simp) (by simp)]; omega
  | MoveLeft => rw [hnj (by simp) (by simp)]; omega
  | Incr => rw [hnj (by simp) (by simp)]; omega
  | Decr => rw [hnj (by simp) (by simp)]; omega
  | ReadStdIn => rw [hnj (by simp) (by simp)]; omega
  | PutStdOut => rw [hnj (by simp) (by simp)]; omega

theorem runLoop_terminates_at_length (ops : List CollapsedToken) (fuel : Nat) :
    ∀ (s s' : RunState), TargetsOk ops → s.loc ≤ ops.length →
      runLoop ops fuel s = some s' → s'.loc = ops.length := by
  induction fuel with
  | zero =>
      intro s s' hT hle h
      rw [runLoop_zero] at h
      split at h
      · cases h
      · cases h
        omega
  | succ fuel ih =>
      intro s s' hT hle h
      rw [runLoop_succ] at h
      split at h
      · exact ih _ s' hT (runStep_loc_le ops s hT (by assumption)) h
      · cases h
        omega

theorem runLoop_at_length (ops : List CollapsedToken) (fuel : Nat) (s : RunState)
    (h : s.loc = ops.length) : runLoop ops fuel s = some s := by
  cases fuel with
  | zero => rw [runLoop_zero, if_neg (by omega)]
  | succ fuel => rw [runLoop_succ, if_neg (by omega)]

/-- C5: after every executor step the instruction pointer advances by
exactly one collapsed-sequence position past the step's effect: non-jump
steps and untaken jumps advance from the current position, a taken
jump-if-zero lands one past its resolved target (the matching
jump-if-nonzero, by C3), a taken jump-if-nonzero lands one past its resolved
target (the matching opener), and — when every jump target is resolved and
in bounds, as parse guarantees — execution halts exactly when the
instruction pointer reaches the length of the collapsed sequence. -/
theorem executor_ip_advance :
    (∀ (ops : List CollapsedToken) (s : RunState),
      (ops.getD s.loc defaultTok).token ≠ BFToken.JumpForward →
      (ops.getD s.loc defaultTok).token ≠ BFToken.JumpBackward →
      (runStep ops s).loc = s.loc + 1) ∧
    (∀ (ops : List CollapsedToken) (s : RunState) (j : Nat),
      ops.getD s.loc defaultTok = ⟨BFToken.JumpForward, some j⟩ →
      s.tape.getD s.ptr.toNat 0 = 0 → (runStep ops s).loc = j + 1) ∧
    (∀ (ops : List CollapsedToken) (s : RunState) (j : Nat),
      ops.getD s.loc defaultTok = ⟨BFToken.JumpForward, some j⟩ →
      s.tape.getD s.ptr.toNat 0 ≠ 0 → (runStep ops s).loc = s.loc + 1) ∧
    (∀ (ops : List CollapsedToken) (s : RunState) (i : Nat),
      ops.getD s.loc defaultTok = ⟨BFToken.JumpBackward, some i⟩ →
      s.tape.getD s.ptr.toNat 0 ≠ 0 → (runStep ops s).loc = i + 1) ∧
    (∀ (ops : List CollapsedToken) (s : RunState) (i : Nat),
      ops.getD s.loc defaultTok = ⟨BFToken.JumpBackward, some i⟩ →
      s.tape.getD s.ptr.toNat 0 = 0 → (runStep ops s).loc = s.loc + 1) ∧
    (∀ (ops : List CollapsedToken) (fuel : Nat) (s s' : RunState),
      TargetsOk ops → s.loc ≤ ops.length →
      runLoop ops fuel s = some s' → s'.loc = ops.length) ∧
    (∀ (ops : List CollapsedToken) (fuel : Nat) (s : RunState),
      s.loc = ops.length → runLoop ops fuel s = some s) :=
  ⟨runStep_loc_nonjump, runStep_jump_forward_taken, runStep_jump_forward_not_taken,
    runStep_jump_backward_taken, runStep_jump_backward_not_taken,
    fun ops fuel s s' => runLoop_terminates_at_length ops fuel s s',
    fun ops fuel s h => runLoop_at_length ops fuel s h⟩

/-- Witness for C5 on concrete one- and two-instruction programs. -/
theorem executor_ip_advance_witness :
    (runStep [⟨BFToken.Incr, some 1⟩] (initState [])).loc = 1 ∧
    (runStep [⟨BFToken.JumpForward, some 1⟩, ⟨BFToken.JumpBackward, some 0⟩]
      (initState [])).loc = 2 ∧
    (runStep [⟨BFToken.JumpForward, some 1⟩] (⟨[5], 0, 0, [], []⟩ : RunState)).loc = 1 ∧
    (runStep [⟨BFToken.JumpBackward, some 0⟩] (⟨[5], 0, 0, [], []⟩ : RunState)).loc = 1 ∧
    (runStep [⟨BFToken.JumpBackward, some 0⟩] (initState [])).loc = 1 ∧
    (runStep [⟨BFToken.Incr, some 1⟩] (initState [])).loc =
      ([⟨BFToken.Incr, some 1⟩] : List CollapsedToken).length ∧
    runLoop [⟨BFToken.Incr, some 1⟩] 0 (⟨[0], 1, 0, [], []⟩ : RunState) =
      some (⟨[0], 1, 0, [], []⟩ : RunState) := by
  refine ⟨?_, ?_, ?_, ?_, ?_, ?_, ?_⟩
  · exact executor_ip_advance.1 [⟨BFToken.Incr, some 1⟩] (initState []) (by decide) (by decide)
  · exact executor_ip_advance.2.1 _ (initState []) 1 (by decide) (by decide)
  · exact executor_ip_advance.2.2.1 _ (⟨[5], 0, 0, [], []⟩ : RunState) 1 (by decide) (by decide)
  · exact executor_ip_advance.2.2.2.1 _ (⟨[5], 0, 0, [], []⟩ : RunState) 0 (by decide) (by decide)
  · exact executor_ip_advance.2.2.2.2.1 _ (initState []) 0 (by decide) (by decide)
  · exact executor_ip_advance.2.2.2.2.2.1 [⟨BFToken.Incr, some 1⟩] 1 (initState [])
      (runStep [⟨BFToken.Incr, some 1⟩] (initState [])) (by unfold TargetsOk; decide) (by decide) (by rfl)
  · exact executor_ip_advance.2.2.2.2.2.2 [⟨BFToken.Incr, some 1⟩] 0
      (⟨[0], 1, 0, [], []⟩ : RunState) (by decide)

/-! ### Cell arithmetic (C2) -/

theorem runStep_eq_incr (ops : List CollapsedToken) (s : RunState) (v : Option Nat)
    (h : ops.getD s.loc defaultTok = ⟨BFToken.Incr, v⟩) :
    runStep ops s =
      { s with
        tape := s.tape.set s.ptr.toNat
          (to_u8 (s.tape.getD s.ptr.toNat 0 + ((v.getD 0 : Nat) : Int))),
        loc := s.loc + 1 } := by
  unfold runStep
  rw [h]

theorem runStep_eq_decr (ops : List CollapsedToken) (s : RunState) (v : Option Nat)
    (h : ops.getD s.loc defaultTok = ⟨BFToken.Decr, v⟩) :
    runStep ops s =
      { s with
        tape := s.tape.set s.ptr.toNat
          (to_u8 (s.tape.getD s.ptr.toNat 0 - ((v.getD 0 : Nat) : Int))),
        loc := s.loc + 1 } := by
  unfold runStep
  rw [h]

theorem runStep_eq_read (ops : List CollapsedToken) (s : RunState) (v : Option Nat)
    (h : ops.getD s.loc defaultTok = ⟨BFToken.ReadStdIn, v⟩) :
    runStep ops s =
      { s with
        tape := (doReads (v.getD 0) s.tape s.ptr s.stdin).1,
        stdin := (doReads (v.getD 0) s.tape s.ptr s.stdin).2,
        loc := s.loc + 1 } := by
  unfold runStep
  rw [h]

/-- `to_u8` always lands in the cell range 0‥254. -/
theorem to_u8_range (v : Int) : 0 ≤ to_u8 v ∧ to_u8 v ≤ 254 := by
  unfold to_u8
  constructor
  · exact Int.emod_nonneg v (by norm_num)
  · have := Int.emod_lt_of_pos v (show (0 : Int) < 255 by norm_num)
    omega

/-- All cells of a tape lie in the valid range 0‥254. -/
def CellsInRange (tape : List Int) : Prop :=
  ∀ i : Nat, 0 ≤ tape.getD i 0 ∧ tape.getD i 0 ≤ 254

/-- C2: an increment step with run length `n` sets the current cell to
`(old + n) % 255` and a decrement step to `(old - n) % 255` (modulus 255,
not 256), with negative intermediate values wrapped up to a non-negative
result; a zeroed tape is in range and increment/decrement steps keep every
cell in 0‥254; and incrementing a value already in range by the modulus 255
returns it unchanged. -/
theorem cell_arith_mod255 :
    (∀ (ops : List CollapsedToken) (s : RunState) (n : Nat),
      ops.getD s.loc defaultTok = ⟨BFToken.Incr, some n⟩ →
      s.ptr.toNat < s.tape.length →
      (runStep ops s).tape.getD s.ptr.toNat 0 =
        (s.tape.getD s.ptr.toNat 0 + (n : Int)) % 255) ∧
    (∀ (ops : List CollapsedToken) (s : RunState) (n : Nat),
      ops.getD s.loc defaultTok = ⟨BFToken.Decr, some n⟩ →
      s.ptr.toNat < s.tape.length →
      (runStep ops s).tape.getD s.ptr.toNat 0 =
        (s.tape.getD s.ptr.toNat 0 - (n : Int)) % 255 ∧
      0 ≤ (runStep ops s).tape.getD s.ptr.toNat 0) ∧
    (∀ stdin : List Int, CellsInRange (initState stdin).tape) ∧
    (∀ (ops : List CollapsedToken) (s : RunState),
      ((ops.getD s.loc defaultTok).token = BFToken.Incr ∨
        (ops.getD s.loc defaultTok).token = BFToken.Decr) →
      CellsInRange s.tape → CellsInRange (runStep ops s).tape) ∧
    (∀ c : Int, 0 ≤ c → c < 255 → to_u8 (c + 255) = c) := by
  refine ⟨?_, ?_, ?_, ?_, ?_⟩
  · intro ops s n h hlt
    rw [runStep_eq_incr ops s (some n) h]
    show (s.tape.set s.ptr.toNat
      (to_u8 (s.tape.getD s.ptr.toNat 0 + (n : Int)))).getD s.ptr.toNat 0 = _
    rw [getD_set', if_pos ⟨rfl, hlt⟩]
    rfl
  · intro ops s n h hlt
    rw [runStep_eq_decr ops s (some n) h]
    constructor
    · show (s.tape.set s.ptr.toNat
        (to_u8 (s.tape.getD s.ptr.toNat 0 - (n : Int)))).getD s.ptr.toNat 0 = _
      rw [getD_set', if_pos ⟨rfl, hlt⟩]
      rfl
    · show 0 ≤ (s.tape.set s.ptr.toNat
        (to_u8 (s.tape.getD s.ptr.toNat 0 - (n : Int)))).getD s.ptr.toNat 0
      rw [getD_set', if_pos ⟨rfl, hlt⟩]
      exact (to_u8_range _).1
  · intro stdin i
    show 0 ≤ (List.replicate TAPE_SIZE (0 : Int)).getD i 0 ∧
      (List.replicate TAPE_SIZE (0 : Int)).getD i 0 ≤ 254
    rw [getD_replicate_zero]
    norm_num
  · intro ops s hdisj hs
    rcases hop : ops.getD s.loc defaultTok with ⟨tok, val⟩
    rw [hop] at hdisj
    rcases hdisj with htok | htok
    · rw [show tok = BFToken.Incr from htok] at hop
      rw [runStep_eq_incr ops s val hop]
      intro i
      show 0 ≤ (s.tape.set s.ptr.toNat
          (to_u8 (s.tape.getD s.ptr.toNat 0 + ((val.getD 0 : Nat) : Int)))).getD i 0 ∧
        (s.tape.set s.ptr.toNat
          (to_u8 (s.tape.getD s.ptr.toNat 0 + ((val.getD 0 : Nat) : Int)))).getD i 0 ≤ 254
      rw [getD_set']
      by_cases hc : s.ptr.toNat = i ∧ s.ptr.toNat < s.tape.length
      · rw [if_pos hc]
        exact to_u8_range _
      · rw [if_neg hc]
        exact hs i
    · rw [show tok = BFToken.Decr from htok] at hop
      rw [runStep_eq_decr ops s val hop]
      intro i
      show 0 ≤ (s.tape.set s.ptr.toNat
          (to_u8 (s.tape.getD s.ptr.toNat 0 - ((val.getD 0 : Nat) : Int)))).getD i 0 ∧
        (s.tape.set s.ptr.toNat
          (to_u8 (s.tape.getD s.ptr.toNat 0 - ((val.getD 0 : Nat) : Int)))).getD i 0 ≤ 254
      rw [getD_set']
      by_cases hc : s.ptr.toNat = i ∧ s.ptr.toNat < s.tape.length
      · rw [if_pos hc]
        exact to_u8_range _
      · rw [if_neg hc]
        exact hs i
  · intro c h0 h255
    unfold to_u8
    omega

/-- Witness for C2 on a one-cell state: `250 + 10 ≡ 5 (mod 255)`,
`0 - 1 ≡ 254 (mod 255)`, a zeroed tape is in range, the increment step keeps
the witness tape in range, and `5 + 255` reduces back to `5`. -/
theorem cell_arith_mod255_witness :
    (runStep [⟨BFToken.Incr, some 10⟩] (⟨[250], 0, 0, [], []⟩ : RunState)).tape.getD 0 0 =
      (250 + 10) % 255 ∧
    ((runStep [⟨BFToken.Decr, some 1⟩] (⟨[0], 0, 0, [], []⟩ : RunState)).tape.getD 0 0 =
        (0 - 1) % 255 ∧
      0 ≤ (runStep [⟨BFToken.Decr, some 1⟩] (⟨[0], 0, 0, [], []⟩ : RunState)).tape.getD 0 0) ∧
    CellsInRange (initState []).tape ∧
    CellsInRange (runStep [⟨BFToken.Incr, some 10⟩] (⟨[250], 0, 0, [], []⟩ : RunState)).tape ∧
    to_u8 (5 + 255) = 5 := by
  refine ⟨?_, ?_, ?_, ?_, ?_⟩
  · exact cell_arith_mod255.1 [⟨BFToken.Incr, some 10⟩]
      (⟨[250], 0, 0, [], []⟩ : RunState) 10 (by decide) (by decide)
  · exact cell_arith_mod255.2.1 [⟨BFToken.Decr, some 1⟩]
      (⟨[0], 0, 0, [], []⟩ : RunState) 1 (by decide) (by decide)
  · exact cell_arith_mod255.2.2.1 []
  · refine cell_arith_mod255.2.2.2.1 [⟨BFToken.Incr, some 10⟩]
      (⟨[250], 0, 0, [], []⟩ : RunState) (by decide) ?_
    intro i
    cases i with
    | zero => constructor <;> decide
    | succ k => constructor <;> simp [List.getD]
  · exact cell_arith_mod255.2.2.2.2 5 (by norm_num) (by norm_num)

/-! ### Input exhaustion (C8) and raw input codes (C10) -/

theorem set_set' {α : Type} (l : List α) (k : Nat) (a b : α) :
    (l.set k a).set k b = l.set k b := by
  induction l generalizing k with
  | nil => simp
  | cons x xs ih =>
      cases k with
      | zero => simp
      | succ m => simp [ih]

/-- With the input exhausted, a read-input step of any positive run length
just stores the null code 0 into the current cell (all its reads do). -/
theorem doReads_exhausted (n : Nat) :
    ∀ (tape : List Int) (ptr : Int),
      doReads (n + 1) tape ptr [] = (tape.set ptr.toNat 0, []) := by
  induction n with
  | zero =>
      intro tape ptr
      rfl
  | succ m ih =>
      intro tape ptr
      show doReads (m + 1) (tape.set ptr.toNat 0) ptr [] = _
      rw [ih (tape.set ptr.toNat 0) ptr, set_set']

/-- A read-input step consumes exactly its run length from the input (and
never grows it): once exhausted, the input stays exhausted for all later
read-input steps. -/
theorem doReads_stdin_drop (n : Nat) :
    ∀ (tape stdin : List Int) (ptr : Int),
      (doReads n tape ptr stdin).2 = stdin.drop n := by
  induction n with
  | zero =>
      intro tape stdin ptr
      simp [doReads]
  | succ m ih =>
      intro tape stdin ptr
      cases stdin with
      | nil =>
          show (doReads m (tape.set ptr.toNat 0) ptr []).2 = _
          rw [ih]
          simp
      | cons c rest =>
          show (doReads m (tape.set ptr.toNat c) ptr rest).2 = _
          rw [ih]
          simp

/-- C8: when a read-input step finds the input exhausted it stores the null
character code 0 into the current cell instead of raising an error, for
every remaining read of the step (first conjunct, any positive run length)
and for all later read-input steps (second conjunct: input only ever
shrinks, so it stays exhausted); the program `","` run on empty input
terminates with no output and with the current cell equal to 0. -/
theorem input_exhaustion_null :
    (∀ (n : Nat) (tape : List Int) (ptr : Int), 0 < n →
      doReads n tape ptr [] = (tape.set ptr.toNat 0, [])) ∧
    (∀ (n : Nat) (tape stdin : List Int) (ptr : Int),
      (doReads n tape ptr stdin).2 = stdin.drop n) ∧
    (run_bf 10 (",".toList) []).map (fun s => s.out) = some [] ∧
    (run_bf 10 (",".toList) []).map (fun s => s.tape.getD s.ptr.toNat 0) = some 0 := by
  refine ⟨?_, ?_, by rfl, by rfl⟩
  · intro n tape ptr hn
    cases n with
    | zero => omega
    | succ m => exact doReads_exhausted m tape ptr
  · intro n tape stdin ptr
    exact doReads_stdin_drop n tape stdin ptr

/-- Witness for C8: one exhausted read on a one-cell tape. -/
theorem input_exhaustion_null_witness :
    doReads 1 [(7 : Int)] 0 [] = ([(7 : Int)].set (0 : Int).toNat 0, ([] : List Int)) :=
  input_exhaustion_null.1 1 [(7 : Int)] 0 (by decide)

/-- C10: a read-input step stores the exact numeric code of the character
read, with no modulus-255 reduction: any code (including values ≥ 255) is
stored verbatim, and program `",."` fed the code 255 emits 255 unchanged,
a value outside the 0‥254 range maintained by increment/decrement. -/
theorem read_stores_raw_code :
    (∀ (ops : List CollapsedToken) (s : RunState) (c : Int) (rest : List Int),
      ops.getD s.loc defaultTok = ⟨BFToken.ReadStdIn, some 1⟩ →
      s.stdin = c :: rest →
      s.ptr.toNat < s.tape.length →
      (runStep ops s).tape.getD s.ptr.toNat 0 = c) ∧
    (run_bf 10 (",.".toList) [255]).map (fun s => s.out) = some [255] ∧
    (run_bf 10 (",".toList) [255]).map (fun s => s.tape.getD s.ptr.toNat 0) = some 255 ∧
    ¬ ((255 : Int) ≤ 254) := by
  refine ⟨?_, by rfl, by rfl, by norm_num⟩
  · intro ops s c rest h hstdin hlt
    rw [runStep_eq_read ops s (some 1) h]
    show ((doReads 1 s.tape s.ptr s.stdin).1).getD s.ptr.toNat 0 = c
    rw [hstdin]
    show (s.tape.set s.ptr.toNat c).getD s.ptr.toNat 0 = c
    rw [getD_set', if_pos ⟨rfl, hlt⟩]

/-- Witness for C10: reading the out-of-byte-range code 300 stores 300. -/
theorem read_stores_raw_code_witness :
    (runStep [⟨BFToken.ReadStdIn, some 1⟩]
      (⟨[0], 0, 0, [300], []⟩ : RunState)).tape.getD 0 0 = 300 :=
  read_stores_raw_code.1 [⟨BFToken.ReadStdIn, some 1⟩]
    (⟨[0], 0, 0, [300], []⟩ : RunState) 300 [] (by decide) rfl (by decide)

set_option maxRecDepth 100000 in
/-- C1: the Hello World program, run with empty input, terminates and the
output sink receives exactly the character codes of `"Hello World!\n"`. -/
theorem hello_world_output :
    (run_bf 2000
        ("++++++++[>++++[>++>+++>+++>+<<<<-]>+>+>->>+[<]<-]>>.>---.+++++++..+++.>>.<-.<.+++.------.--------.>>+.>++.".toList)
        []).map (fun s => s.out) =
      some ("Hello World!\n".toList.map (fun c => (c.toNat : Int))) := by
  rfl
